import Mathlib

/-!
Verification of the Glitter Bomb particle engine (src/src/view.js).

The development shallowly embeds the data structures and routines of the
engine and settles the specified properties about them.  JavaScript numbers
are modelled by rationals; the mutable arrays of the engine (the particle
pool's free list and active list, the rocket list) are modelled by Lean
lists in the same order as the JavaScript arrays, with `push` appending at
the end and `pop` removing from the end, exactly as in the source.
-/

namespace GlitterBomb

/-- JavaScript remainder `a % b` for nonnegative operands, as used by
`animate` (`deltaTime % FRAME_DURATION`) and the colour cycling
(`(colorIndex + colorCycleSpeed) % 1`). -/
def jsMod (a b : ℚ) : ℚ := a - b * (⌊a / b⌋ : ℤ)

/-- FRAME_DURATION = 1000 / TARGET_FPS with TARGET_FPS = 60 (view.js line 193). -/
def FRAME_DURATION : ℚ := 1000 / 60

/-! ## The particle pool (view.js lines 196-281)

Particle objects are JavaScript objects compared by identity; we model the
identity of each object by a natural number, allocated in creation order.
`createParticleObject` initialises payload fields that are irrelevant to
membership and counting, so the pool state tracks the identities held by the
free list (`this.pool`) and the active list (`this.activeParticles`),
together with the number of particle objects ever allocated. -/

structure PoolState where
  free : List ℕ
  active : List ℕ
  nextId : ℕ
  deriving Repr, DecidableEq

/-- Constructor of ParticlePool: pre-allocates `initialSize` particle
objects into the free list (lines 197-206). -/
def initPool (initialSize : ℕ) : PoolState :=
  { free := List.range initialSize, active := [], nextId := initialSize }

/-- ParticlePool.acquire (lines 238-249): pop a particle from the free list
if one is available, otherwise create a fresh object; mark it active and
push it onto the active list.  Returns the acquired identity and the new
state. -/
def acquire (s : PoolState) : ℕ × PoolState :=
  match s.free.getLast? with
  | some p =>
      (p, { s with free := s.free.dropLast, active := s.active ++ [p] })
  | none =>
      (s.nextId,
        { s with active := s.active ++ [s.nextId], nextId := s.nextId + 1 })

/-- ParticlePool.release (lines 251-259): remove the particle from the
active list if present (indexOf + splice removes the first occurrence) and
push it onto the free list; the push is unconditional, exactly as in the
source. -/
def release (s : PoolState) (p : ℕ) : PoolState :=
  { s with active := s.active.erase p, free := s.free ++ [p] }

/-- ParticlePool.releaseAll (lines 261-268): the while loop pops the last
active particle and pushes it to the free list until the active list is
empty, so the free list gains the active particles in reverse order. -/
def releaseAll (s : PoolState) : PoolState :=
  { s with free := s.free ++ s.active.reverse, active := [] }

/-- A call made to the pool: `acquire()` or `release(p)`. -/
inductive PoolOp where
  | acq : PoolOp
  | rel : ℕ → PoolOp
  deriving Repr, DecidableEq

def poolStep (s : PoolState) : PoolOp → PoolState
  | PoolOp.acq => (acquire s).2
  | PoolOp.rel p => release s p

def runPool (s : PoolState) (ops : List PoolOp) : PoolState :=
  ops.foldl poolStep s

/-- A call sequence is well formed when every `release` is applied to a
particle currently on the active list, which is the contract the engine
itself respects (callers must not retain references past release). -/
def validRun : PoolState → List PoolOp → Bool
  | _, [] => true
  | s, op :: ops =>
      (match op with
       | PoolOp.acq => true
       | PoolOp.rel p => decide (p ∈ s.active)) && validRun (poolStep s op) ops

/-- The pool invariant: the identities across both lists are pairwise
distinct (in particular the lists are disjoint), all of them have been
allocated, and the two list lengths sum to the allocation count. -/
def PoolInv (s : PoolState) : Prop :=
  (s.free ++ s.active).Nodup ∧
  (∀ p ∈ s.free ++ s.active, p < s.nextId) ∧
  s.free.length + s.active.length = s.nextId

theorem poolInv_init (n : ℕ) : PoolInv (initPool n) := by
  refine ⟨?_, ?_, ?_⟩
  · simpa [initPool] using List.nodup_range n
  · intro p hp
    simpa [initPool] using hp
  · simp [initPool]

theorem poolInv_acquire (s : PoolState) (h : PoolInv s) : PoolInv (acquire s).2 := by
  obtain ⟨hnd, hlt, hlen⟩ := h
  unfold acquire
  cases hfree : s.free.getLast? with
  | none =>
      have hfe : s.free = [] := List.getLast?_eq_none_iff.mp hfree
      refine ⟨?_, ?_, ?_⟩
      · have hact : s.active.Nodup := by
          simpa [hfe] using hnd
        simp only [hfe, List.nil_append]
        refine List.Nodup.append hact (List.nodup_singleton _) ?_
        intro a ha hb
        have h1 : a < s.nextId := hlt a (by simp [hfe, ha])
        have h2 : a = s.nextId := List.mem_singleton.mp hb
        omega
      · intro p hp
        simp only [hfe, List.nil_append, List.mem_append, List.mem_singleton] at hp
        rcases hp with hp | hp
        · exact Nat.lt_succ_of_lt (hlt p (by simp [hfe, hp]))
        · simp [hp]
      · simp only [hfe, List.length_nil, Nat.zero_add] at hlen
        simp only [hfe, List.length_nil, List.length_append, List.length_singleton]
        omega
  | some p =>
      have hfne : s.free ≠ [] := by
        intro hc
        rw [hc] at hfree
        simp at hfree
      have hsplit : s.free = s.free.dropLast ++ [p] := by
        conv_lhs => rw [← List.dropLast_append_getLast hfne]
        rw [List.getLast?_eq_getLast s.free hfne] at hfree
        simp at hfree
        rw [hfree]
      refine ⟨?_, ?_, ?_⟩
      · have heq : s.free ++ s.active = s.free.dropLast ++ ([p] ++ s.active) := by
          conv_lhs => rw [hsplit]
          rw [List.append_assoc]
        have hperm :
            (s.free ++ s.active).Perm (s.free.dropLast ++ (s.active ++ [p])) := by
          rw [heq]
          exact List.Perm.append_left _ List.perm_append_comm
        exact hperm.nodup hnd
      · intro q hq
        simp only [List.mem_append] at hq
        apply hlt
        rcases hq with hq | hq | hq
        · exact List.mem_append_left _ (List.mem_of_mem_dropLast hq)
        · exact List.mem_append_right _ hq
        · simp only [List.mem_singleton] at hq
          subst hq
          exact List.mem_append_left _ (by rw [hsplit]; simp)
      · have : s.free.length = s.free.dropLast.length + 1 := by
          rw [hsplit]; simp
        simp only [List.length_append, List.length_singleton] at *
        omega

theorem poolInv_release (s : PoolState) (p : ℕ) (hp : p ∈ s.active)
    (h : PoolInv s) : PoolInv (release s p) := by
  obtain ⟨hnd, hlt, hlen⟩ := h
  have hperm : (s.free ++ s.active).Perm (s.free ++ [p] ++ s.active.erase p) := by
    rw [List.append_assoc]
    exact List.Perm.append_left _ (List.perm_cons_erase hp)
  refine ⟨?_, ?_, ?_⟩
  · exact hperm.nodup hnd
  · intro q hq
    apply hlt
    exact hperm.symm.subset (by simpa [release, List.append_assoc] using hq)
  · have : (s.active.erase p).length = s.active.length - 1 :=
      List.length_erase_of_mem hp
    have hpos : 0 < s.active.length := List.length_pos_of_mem hp
    simp only [release, List.length_append, List.length_singleton]
    omega

theorem poolInv_run (ops : List PoolOp) :
    ∀ s : PoolState, PoolInv s → validRun s ops = true → PoolInv (runPool s ops) := by
  induction ops with
  | nil => intro s h _; simpa [runPool] using h
  | cons op ops ih =>
      intro s hinv hv
      simp only [validRun, Bool.and_eq_true] at hv
      have hrun : runPool s (op :: ops) = runPool (poolStep s op) ops := rfl
      rw [hrun]
      cases op with
      | acq => exact ih _ (poolInv_acquire s hinv) hv.2
      | rel p =>
          exact ih _ (poolInv_release s p (of_decide_eq_true hv.1) hinv) hv.2

/-- C1, counterexample.  The claim quantifies over every sequence of
`acquire`/`release` calls, but `release` pushes its argument onto the free
list unconditionally, so releasing an already-released particle duplicates
it: starting from a pool of one pre-allocated object, the sequence
acquire; release(p); release(p); acquire leaves the single ever-allocated
object simultaneously on the free list and on the active list, and the two
list lengths sum to 2 while only one object was ever allocated. -/
theorem pool_conservation_counterexample :
    (runPool (initPool 1) [PoolOp.acq, PoolOp.rel 0, PoolOp.rel 0, PoolOp.acq]).nextId = 1 ∧
    (runPool (initPool 1)
        [PoolOp.acq, PoolOp.rel 0, PoolOp.rel 0, PoolOp.acq]).free.length +
      (runPool (initPool 1)
        [PoolOp.acq, PoolOp.rel 0, PoolOp.rel 0, PoolOp.acq]).active.length = 2 ∧
    0 ∈ (runPool (initPool 1) [PoolOp.acq, PoolOp.rel 0, PoolOp.rel 0, PoolOp.acq]).free ∧
    0 ∈ (runPool (initPool 1) [PoolOp.acq, PoolOp.rel 0, PoolOp.rel 0, PoolOp.acq]).active := by
  decide

/-- C1, amended.  For every sequence of `acquire`/`release` calls in which
each `release` is applied to a currently active particle (the contract the
engine respects), the free-list length plus the active-list length equals
the total number of particle objects ever allocated, and no particle is
simultaneously a member of the free list and of the active list. -/
theorem pool_conservation (n : ℕ) (ops : List PoolOp)
    (hv : validRun (initPool n) ops = true) :
    (runPool (initPool n) ops).free.length + (runPool (initPool n) ops).active.length
        = (runPool (initPool n) ops).nextId ∧
      ∀ p : ℕ, ¬ (p ∈ (runPool (initPool n) ops).free ∧
        p ∈ (runPool (initPool n) ops).active) := by
  have h := poolInv_run ops (initPool n) (poolInv_init n) hv
  obtain ⟨hnd, _, hlen⟩ := h
  refine ⟨hlen, ?_⟩
  intro p hp
  have hdisj := List.disjoint_of_nodup_append hnd
  exact hdisj hp.1 hp.2

/-- C1, witness for the amended theorem, at the concrete valid sequence
acquire; release(0) on a pool of one pre-allocated object. -/
theorem pool_conservation_witness :
    validRun (initPool 1) [PoolOp.acq, PoolOp.rel 0] = true ∧
      ((runPool (initPool 1) [PoolOp.acq, PoolOp.rel 0]).free.length +
          (runPool (initPool 1) [PoolOp.acq, PoolOp.rel 0]).active.length
          = (runPool (initPool 1) [PoolOp.acq, PoolOp.rel 0]).nextId ∧
        ∀ p : ℕ, ¬ (p ∈ (runPool (initPool 1) [PoolOp.acq, PoolOp.rel 0]).free ∧
          p ∈ (runPool (initPool 1) [PoolOp.acq, PoolOp.rel 0]).active)) :=
  ⟨by decide, pool_conservation 1 [PoolOp.acq, PoolOp.rel 0] (by decide)⟩

/-! ## Sprinkle trail spawning (view.js lines 1107-1151) -/

/-- Minimum spacing between trail particles (line 1115): larger on mobile
(touch) than on desktop (pointer). -/
def minSpacing (isMob : Bool) : ℚ := if isMob then 12 else 8

structure TrailState where
  lastParticleX : ℚ
  lastParticleY : ℚ
  pool : PoolState
  deriving Repr, DecidableEq

/-- GlitterBombParticles.createParticle (lines 1107-1151).  The source
computes `distance = Math.sqrt(dx*dx + dy*dy)` and returns early when
`distance < minSpacing`; both sides being nonnegative and minSpacing
positive, the test is rendered over ℚ as `dx^2 + dy^2 < minSpacing^2`.
When the particle limit is reached, the oldest active particle
(`activeParticles[0]`) is released before one particle is acquired; the
payload initialisation (position, colour, lifetime) does not affect pool
membership and is not tracked here. -/
def createParticle (isMob : Bool) (maxParticles : ℕ) (s : TrailState) (x y : ℚ) :
    TrailState :=
  let dx := x - s.lastParticleX
  let dy := y - s.lastParticleY
  if dx * dx + dy * dy < minSpacing isMob * minSpacing isMob then s
  else
    let pool1 :=
      if maxParticles ≤ s.pool.active.length then
        release s.pool (s.pool.active.headD 0)
      else s.pool
    { lastParticleX := x, lastParticleY := y, pool := (acquire pool1).2 }

/-- Repeated acquisition, used by the click burst spawners. -/
def acquireN : ℕ → PoolState → PoolState
  | 0, s => s
  | k + 1, s => acquireN k (acquire s).2

/-- Pool effect of GlitterBombParticles.createSprinkleExplosion
(lines 907-938): acquires 10 particles in the emoji variant and 20 in the
disc variant, with no limit check. -/
def createSprinkleExplosion (isEmoji : Bool) (s : PoolState) : PoolState :=
  acquireN (if isEmoji then 10 else 20) s

theorem acquire_active (s : PoolState) :
    ∃ p : ℕ, (acquire s).2.active = s.active ++ [p] := by
  unfold acquire
  cases hfree : s.free.getLast? with
  | none => exact ⟨s.nextId, rfl⟩
  | some p => exact ⟨p, rfl⟩

theorem acquire_active_length (s : PoolState) :
    (acquire s).2.active.length = s.active.length + 1 := by
  obtain ⟨p, hp⟩ := acquire_active s
  simp [hp]

/-- C4: on a trail-mode pointer-move event, a displacement from the last
spawn position strictly below the minimum spacing threshold spawns no
trail particle (the state is unchanged); a displacement at or above the
threshold spawns exactly one (the active list is extended by exactly one
particle, after the oldest is dropped if the limit was reached); and the
threshold is coarser on touch/mobile (12) than on pointer/desktop (8). -/
theorem trail_spacing (isMob : Bool) (maxP : ℕ) (s : TrailState) (x y : ℚ) :
    minSpacing false < minSpacing true ∧
    ((x - s.lastParticleX) * (x - s.lastParticleX) +
        (y - s.lastParticleY) * (y - s.lastParticleY) <
        minSpacing isMob * minSpacing isMob →
      createParticle isMob maxP s x y = s) ∧
    (minSpacing isMob * minSpacing isMob ≤
        (x - s.lastParticleX) * (x - s.lastParticleX) +
          (y - s.lastParticleY) * (y - s.lastParticleY) →
      ∃ p : ℕ,
        (createParticle isMob maxP s x y).pool.active =
          (if maxP ≤ s.pool.active.length then
              (release s.pool (s.pool.active.headD 0)).active
            else s.pool.active) ++ [p]) := by
  refine ⟨by norm_num [minSpacing], ?_, ?_⟩
  · intro hlt
    simp [createParticle, hlt]
  · intro hge
    have hnotlt : ¬ ((x - s.lastParticleX) * (x - s.lastParticleX) +
        (y - s.lastParticleY) * (y - s.lastParticleY) <
        minSpacing isMob * minSpacing isMob) := not_lt.mpr hge
    by_cases hcap : maxP ≤ s.pool.active.length
    · obtain ⟨p, hp⟩ := acquire_active (release s.pool (s.pool.active.headD 0))
      refine ⟨p, ?_⟩
      simp only [createParticle, hnotlt, if_neg hnotlt, if_pos hcap]
      simpa [release] using hp
    · obtain ⟨p, hp⟩ := acquire_active s.pool
      refine ⟨p, ?_⟩
      simp only [createParticle, hnotlt, if_neg hnotlt, if_neg hcap]
      exact hp

/-- C4, witness: a desktop move of 10 px (at least the 8 px threshold)
from the origin spawns exactly one particle, and a move of 1 px spawns
none. -/
theorem trail_spacing_witness :
    (minSpacing false * minSpacing false ≤
        ((10 : ℚ) - 0) * ((10 : ℚ) - 0) + ((0 : ℚ) - 0) * ((0 : ℚ) - 0) ∧
      ∃ p : ℕ,
        (createParticle false 5 ⟨0, 0, initPool 1⟩ 10 0).pool.active =
          (if 5 ≤ (initPool 1).active.length then
              (release (initPool 1) ((initPool 1).active.headD 0)).active
            else (initPool 1).active) ++ [p]) ∧
    (((1 : ℚ) - 0) * ((1 : ℚ) - 0) + ((0 : ℚ) - 0) * ((0 : ℚ) - 0) <
        minSpacing false * minSpacing false ∧
      createParticle false 5 ⟨0, 0, initPool 1⟩ 1 0 = ⟨0, 0, initPool 1⟩) :=
  ⟨⟨by norm_num [minSpacing],
      (trail_spacing false 5 ⟨0, 0, initPool 1⟩ 10 0).2.2 (by norm_num [minSpacing])⟩,
    ⟨by norm_num [minSpacing],
      (trail_spacing false 5 ⟨0, 0, initPool 1⟩ 1 0).2.1 (by norm_num [minSpacing])⟩⟩

/-- C9, counterexample.  The conclusion that a createParticle call never
leaves the active count above maxParticles fails when the count already
exceeds the limit, which the click burst makes reachable: with
maxParticles = 2, a sprinkle click explosion (20 unchecked acquisitions)
followed by a qualifying move leaves 20 active particles, above the
limit. -/
theorem trail_cap_counterexample :
    (createParticle false 2
        { lastParticleX := 0, lastParticleY := 0,
          pool := createSprinkleExplosion false (initPool 70) } 100 0).pool.active.length
      = 20 ∧ ¬ ((createParticle false 2
        { lastParticleX := 0, lastParticleY := 0,
          pool := createSprinkleExplosion false (initPool 70) } 100 0).pool.active.length
        ≤ 2) := by
  have hcond : ¬ (((100 : ℚ) - 0) * ((100 : ℚ) - 0) + ((0 : ℚ) - 0) * ((0 : ℚ) - 0) <
      minSpacing false * minSpacing false) := by norm_num [minSpacing]
  simp only [createParticle, if_neg hcond]
  constructor
  · decide
  · decide

/-- C9, amended.  When createParticle is about to spawn while the active
count is at least maxParticles, it releases the oldest active particle
(index 0) before acquiring, so a call never *raises* the active count
above maxParticles: whenever the count is at most maxParticles before the
call (and maxParticles is at least 1, as the configuration parser
guarantees), it is still at most maxParticles after. -/
theorem trail_cap (isMob : Bool) (maxP : ℕ) (s : TrailState) (x y : ℚ)
    (hmax : 1 ≤ maxP) (hlen : s.pool.active.length ≤ maxP) :
    (createParticle isMob maxP s x y).pool.active.length ≤ maxP := by
  unfold createParticle
  by_cases hlt : (x - s.lastParticleX) * (x - s.lastParticleX) +
      (y - s.lastParticleY) * (y - s.lastParticleY) <
      minSpacing isMob * minSpacing isMob
  · simpa [hlt] using hlen
  · simp only [if_neg hlt]
    by_cases hcap : maxP ≤ s.pool.active.length
    · simp only [if_pos hcap]
      have hne : s.pool.active ≠ [] := by
        intro hc
        rw [hc] at hcap
        simp at hcap
        omega
      obtain ⟨a, t, hat⟩ := List.exists_cons_of_ne_nil hne
      have hhead : s.pool.active.headD 0 = a := by rw [hat]; rfl
      have herase : (release s.pool (s.pool.active.headD 0)).active = t := by
        simp [release, hhead, hat]
      rw [acquire_active_length]
      rw [herase]
      have : s.pool.active.length = t.length + 1 := by rw [hat]; rfl
      omega
    · simp only [if_neg hcap]
      rw [acquire_active_length]
      omega

/-- C9, witness for the amended theorem: with maxParticles = 3 and three
particles already active, a qualifying move keeps the count at 3. -/
theorem trail_cap_witness :
    (1 ≤ 3 ∧ (createSprinkleExplosion true (initPool 5)).active.length ≤ 10) ∧
      (createParticle false 10
        { lastParticleX := 0, lastParticleY := 0,
          pool := createSprinkleExplosion true (initPool 5) } 100 0).pool.active.length
        ≤ 10 :=
  ⟨⟨by decide, by decide⟩,
    trail_cap false 10
      { lastParticleX := 0, lastParticleY := 0,
        pool := createSprinkleExplosion true (initPool 5) } 100 0 (by decide) (by decide)⟩

/-! ## Rockets and the session life cycle -/

structure Rocket where
  x : ℚ
  y : ℚ
  vx : ℚ
  vy : ℚ
  deriving Repr, DecidableEq

/-- The session state touched by stop and destroy.  `animationFrameId`
models the pending scheduled tick (the requestAnimationFrame handle, null
when none is pending) and `resizeDebouncePending` the pending
resize-debounce timeout; `canvasCleared` records whether the drawing
surface has been cleared. -/
structure Session where
  animationFrameId : Option ℕ
  resizeDebouncePending : Option ℕ
  pool : PoolState
  rockets : List Rocket
  isInitialized : Bool
  canvasCleared : Bool
  isActive : Bool
  deriving Repr, DecidableEq

/-- GlitterBombParticles.stop (lines 803-813): cancel the scheduled tick,
release every particle back to the pool, discard the rockets, mark the
session uninitialised and clear the drawing surface.  The resize-debounce
timer is not touched. -/
def stop (s : Session) : Session :=
  { s with animationFrameId := none
           pool := releaseAll s.pool
           rockets := []
           isInitialized := false
           canvasCleared := true }

/-- GlitterBombParticles.destroy (lines 1816-1853): clear the pending
resize-debounce timer, remove the interaction listeners, then stop. -/
def destroy (s : Session) : Session :=
  stop { s with resizeDebouncePending := none }

/-- C5: calling stop twice in a row yields the same session state as
calling it once; after a stop the pool is fully drained (no active
particles), the drawing surface is cleared, and no scheduled tick is
pending. -/
theorem stop_idempotent (s : Session) :
    stop (stop s) = stop s ∧ (stop s).pool.active = [] ∧
      (stop s).canvasCleared = true ∧ (stop s).animationFrameId = none := by
  refine ⟨?_, rfl, rfl, rfl⟩
  simp [stop, releaseAll]

/-- A session with a tick scheduled and a resize-debounce timer pending. -/
def sessionWithPending : Session :=
  { animationFrameId := some 1
    resizeDebouncePending := some 2
    pool := initPool 1
    rockets := []
    isInitialized := true
    canvasCleared := false
    isActive := true }

/-- C7, counterexample.  Deactivation (stop) cancels the scheduled tick
but leaves a pending resize-debounce timer pending: its callback can
still fire against the deactivated session. -/
theorem stop_cancellation_counterexample :
    (stop sessionWithPending).animationFrameId = none ∧
      (stop sessionWithPending).resizeDebouncePending = some 2 ∧
      ¬ (stop sessionWithPending).resizeDebouncePending = none := by
  refine ⟨rfl, rfl, ?_⟩
  decide

/-- C7, amended.  Deactivation (stop) synchronously cancels the pending
scheduled tick but leaves the resize-debounce timer untouched; it is
destroy that cancels both the scheduled tick and the pending
resize-debounce timer. -/
theorem stop_cancellation (s : Session) :
    (stop s).animationFrameId = none ∧
      (stop s).resizeDebouncePending = s.resizeDebouncePending ∧
      (destroy s).animationFrameId = none ∧
      (destroy s).resizeDebouncePending = none :=
  ⟨rfl, rfl, rfl, rfl⟩

/-! ## Frame pacing (view.js lines 1764-1814) -/

structure PacerState where
  lastUpdateTime : ℚ
  updates : ℕ
  deriving Repr, DecidableEq

/-- Frame-rate throttling of GlitterBombParticles.animate
(lines 1771-1810): `deltaTime = currentTime - lastUpdateTime`; when
`deltaTime >= FRAME_DURATION` the physics update runs (counted in
`updates`) and `lastUpdateTime` is advanced to
`currentTime - (deltaTime % FRAME_DURATION)`; otherwise only a redraw
happens, leaving the pacing state unchanged. -/
def animateTick (t : ℚ) (s : PacerState) : PacerState :=
  let deltaTime := t - s.lastUpdateTime
  if FRAME_DURATION ≤ deltaTime then
    { lastUpdateTime := t - jsMod deltaTime FRAME_DURATION, updates := s.updates + 1 }
  else s

/-- A run of the animate loop over the given sequence of tick times. -/
def runTicks (s : PacerState) (ts : List ℚ) : PacerState :=
  ts.foldl (fun s t => animateTick t s) s

/-- A tick-time sequence as produced by requestAnimationFrame on a display
refreshing at 60 Hz or faster: times do not decrease and consecutive ticks
are at most one frame interval apart (the first at most one interval after
the reference instant `prev`). -/
def TickChain (prev : ℚ) : List ℚ → Prop
  | [] => True
  | t :: ts => prev ≤ t ∧ t - prev ≤ FRAME_DURATION ∧ TickChain t ts

theorem frameDuration_pos : (0 : ℚ) < FRAME_DURATION := by
  norm_num [FRAME_DURATION]

theorem jsMod_eq_fract (a b : ℚ) (hb : b ≠ 0) :
    jsMod a b = b * Int.fract (a / b) := by
  have hfr : Int.fract (a / b) = a / b - (⌊a / b⌋ : ℤ) := rfl
  unfold jsMod
  rw [hfr, mul_sub, mul_comm b (a / b), div_mul_cancel₀ a hb]

theorem jsMod_nonneg (a b : ℚ) (hb : 0 < b) : 0 ≤ jsMod a b := by
  rw [jsMod_eq_fract a b (ne_of_gt hb)]
  exact mul_nonneg hb.le (Int.fract_nonneg _)

theorem jsMod_lt (a b : ℚ) (hb : 0 < b) : jsMod a b < b := by
  rw [jsMod_eq_fract a b (ne_of_gt hb)]
  calc b * Int.fract (a / b) < b * 1 := by
        exact mul_lt_mul_of_pos_left (Int.fract_lt_one _) hb
    _ = b := mul_one b

theorem animateTick_pos_eq (s : PacerState) (t : ℚ)
    (h : FRAME_DURATION ≤ t - s.lastUpdateTime) :
    animateTick t s =
      { lastUpdateTime := t - jsMod (t - s.lastUpdateTime) FRAME_DURATION,
        updates := s.updates + 1 } := by
  unfold animateTick
  rw [if_pos h]

/-- After an update fires, the reference time has advanced by a whole
positive number of frame intervals. -/
theorem animateTick_advance (s : PacerState) (t : ℚ)
    (h : FRAME_DURATION ≤ t - s.lastUpdateTime) :
    (animateTick t s).updates = s.updates + 1 ∧
      ∃ k : ℤ, 1 ≤ k ∧
        (animateTick t s).lastUpdateTime =
          s.lastUpdateTime + FRAME_DURATION * k := by
  rw [animateTick_pos_eq s t h]
  dsimp only
  refine ⟨rfl, ⟨⌊(t - s.lastUpdateTime) / FRAME_DURATION⌋, ?_, ?_⟩⟩
  · rw [Int.le_floor]
    push_cast
    rw [le_div_iff₀ frameDuration_pos]
    linarith
  · unfold jsMod
    ring

theorem animateTick_skip (s : PacerState) (t : ℚ)
    (h : t - s.lastUpdateTime < FRAME_DURATION) : animateTick t s = s := by
  unfold animateTick
  simp [not_le.mpr h]

/-- Pacing invariant relative to the time `prev` of the last processed
tick: the update-time reference is a whole number of frame intervals past
the start and lags the current time by less than one interval. -/
def PacerInv (s : PacerState) (prev : ℚ) : Prop :=
  s.lastUpdateTime = FRAME_DURATION * s.updates ∧
    s.lastUpdateTime ≤ prev ∧ prev - s.lastUpdateTime < FRAME_DURATION

theorem pacerInv_step (s : PacerState) (prev t : ℚ) (h : PacerInv s prev)
    (h1 : prev ≤ t) (h2 : t - prev ≤ FRAME_DURATION) :
    PacerInv (animateTick t s) t := by
  obtain ⟨he, hle, hlt⟩ := h
  have hF := frameDuration_pos
  by_cases hd : FRAME_DURATION ≤ t - s.lastUpdateTime
  · have h2F : t - s.lastUpdateTime < 2 * FRAME_DURATION := by linarith
    have hfloor : ⌊(t - s.lastUpdateTime) / FRAME_DURATION⌋ = 1 := by
      rw [Int.floor_eq_iff]
      constructor
      · push_cast
        rw [le_div_iff₀ hF]
        linarith
      · push_cast
        rw [div_lt_iff₀ hF]
        linarith
    have hmod : jsMod (t - s.lastUpdateTime) FRAME_DURATION =
        t - s.lastUpdateTime - FRAME_DURATION := by
      unfold jsMod
      rw [hfloor]
      push_cast
      ring
    rw [animateTick_pos_eq s t hd, hmod]
    refine ⟨?_, ?_, ?_⟩
    · dsimp only
      rw [he]
      push_cast
      ring
    · dsimp only
      linarith
    · dsimp only
      linarith
  · rw [animateTick_skip s t (not_le.mp hd)]
    exact ⟨he, by linarith [not_le.mp hd], not_le.mp hd⟩

theorem pacerInv_run (ts : List ℚ) :
    ∀ (prev : ℚ) (s : PacerState), PacerInv s prev → TickChain prev ts →
      PacerInv (runTicks s ts) (ts.getLastD prev) := by
  induction ts with
  | nil => intro prev s h _; simpa [runTicks] using h
  | cons t ts ih =>
      intro prev s h hc
      obtain ⟨h1, h2, hc2⟩ := hc
      have hrun : runTicks s (t :: ts) = runTicks (animateTick t s) ts := rfl
      rw [hrun, List.getLastD_cons]
      exact ih t (animateTick t s) (pacerInv_step s prev t h h1 h2) hc2

/-- C2: over a simulated 10-second run (tick times given in ms, start
reference 0, last tick within a frame interval past the 10000 ms mark)
driven by a variable-rate tick source refreshing at 60 Hz or faster, the
animate loop performs a number of physics updates within one unit of 600,
regardless of how many redraw-only ticks occur between physics updates;
moreover each tick runs physics exactly when the elapsed time since the
last physics update is at least the frame interval, and then advances the
update-time reference by a whole number of frame intervals. -/
theorem frame_pacing (ts : List ℚ) (hchain : TickChain 0 ts)
    (hlast1 : 10000 ≤ ts.getLastD 0)
    (hlast2 : ts.getLastD 0 < 10000 + FRAME_DURATION) :
    (600 - 1 ≤ (runTicks ⟨0, 0⟩ ts).updates ∧
        (runTicks ⟨0, 0⟩ ts).updates ≤ 600 + 1) ∧
      (∀ (s : PacerState) (t : ℚ), t - s.lastUpdateTime < FRAME_DURATION →
        animateTick t s = s) ∧
      (∀ (s : PacerState) (t : ℚ), FRAME_DURATION ≤ t - s.lastUpdateTime →
        (animateTick t s).updates = s.updates + 1 ∧
          ∃ k : ℤ, 1 ≤ k ∧
            (animateTick t s).lastUpdateTime =
              s.lastUpdateTime + FRAME_DURATION * k) := by
  refine ⟨?_, animateTick_skip, animateTick_advance⟩
  have hF := frameDuration_pos
  have hinv0 : PacerInv ⟨0, 0⟩ 0 := by
    refine ⟨by simp, le_refl 0, by simpa using hF⟩
  have hinv := pacerInv_run ts 0 ⟨0, 0⟩ hinv0 hchain
  obtain ⟨he, hle, hlt⟩ := hinv
  set n := (runTicks ⟨0, 0⟩ ts).updates with hn
  have h600 : (10000 : ℚ) = FRAME_DURATION * 600 := by
    norm_num [FRAME_DURATION]
  have hup : FRAME_DURATION * (n : ℚ) < FRAME_DURATION * 601 := by
    rw [← he]
    calc (runTicks ⟨0, 0⟩ ts).lastUpdateTime ≤ ts.getLastD 0 := hle
      _ < 10000 + FRAME_DURATION := hlast2
      _ = FRAME_DURATION * 601 := by rw [h600]; ring
  have hlo : FRAME_DURATION * 599 < FRAME_DURATION * (n : ℚ) := by
    rw [← he]
    have : (10000 : ℚ) - FRAME_DURATION ≤ ts.getLastD 0 - FRAME_DURATION := by
      linarith
    calc FRAME_DURATION * 599 = 10000 - FRAME_DURATION := by rw [h600]; ring
      _ ≤ ts.getLastD 0 - FRAME_DURATION := this
      _ < (runTicks ⟨0, 0⟩ ts).lastUpdateTime := by linarith
  have hnq1 : (n : ℚ) < 601 := lt_of_mul_lt_mul_left hup hF.le
  have hnq2 : (599 : ℚ) < n := lt_of_mul_lt_mul_left hlo hF.le
  have hn1 : n < 601 := by exact_mod_cast hnq1
  have hn2 : 599 < n := by exact_mod_cast hnq2
  omega

/-- Uniform 60 Hz tick times: one tick exactly every frame interval. -/
def uniformTicks : ℕ → List ℚ
  | 0 => []
  | n + 1 => uniformTicks n ++ [(n + 1 : ℕ) * FRAME_DURATION]

theorem getLastD_concat (l : List ℚ) (a : ℚ) :
    ∀ d : ℚ, (l ++ [a]).getLastD d = a := by
  induction l with
  | nil => intro d; rfl
  | cons x l ih =>
      intro d
      rw [List.cons_append, List.getLastD_cons]
      exact ih x

theorem uniformTicks_last (n : ℕ) :
    (uniformTicks n).getLastD 0 = n * FRAME_DURATION := by
  cases n with
  | zero => simp [uniformTicks]
  | succ m => rw [uniformTicks, getLastD_concat]

theorem tickChain_concat (ts : List ℚ) :
    ∀ (prev t : ℚ), TickChain prev ts → ts.getLastD prev ≤ t →
      t - ts.getLastD prev ≤ FRAME_DURATION → TickChain prev (ts ++ [t]) := by
  induction ts with
  | nil =>
      intro prev t _ h1 h2
      exact ⟨h1, h2, trivial⟩
  | cons a l ih =>
      intro prev t hc h1 h2
      rw [List.getLastD_cons] at h1 h2
      exact ⟨hc.1, hc.2.1, ih a t hc.2.2 h1 h2⟩

theorem uniformTicks_chain (n : ℕ) : TickChain 0 (uniformTicks n) := by
  induction n with
  | zero => trivial
  | succ m ih =>
      rw [uniformTicks]
      apply tickChain_concat _ _ _ ih
      · rw [uniformTicks_last]
        have := frameDuration_pos
        have hm : (m : ℚ) * FRAME_DURATION ≤ (m + 1 : ℚ) * FRAME_DURATION := by
          nlinarith
        calc (m : ℚ) * FRAME_DURATION ≤ (m + 1 : ℚ) * FRAME_DURATION := hm
          _ = ((m + 1 : ℕ) : ℚ) * FRAME_DURATION := by push_cast; ring
      · rw [uniformTicks_last]
        have : ((m + 1 : ℕ) : ℚ) * FRAME_DURATION - (m : ℚ) * FRAME_DURATION =
            FRAME_DURATION := by push_cast; ring
        rw [this]

theorem uniformTicks_run (n : ℕ) :
    runTicks ⟨0, 0⟩ (uniformTicks n) = ⟨n * FRAME_DURATION, n⟩ := by
  induction n with
  | zero => simp [uniformTicks, runTicks]
  | succ m ih =>
      have hF := frameDuration_pos
      rw [uniformTicks]
      have hfold : runTicks ⟨0, 0⟩ (uniformTicks m ++ [((m + 1 : ℕ) : ℚ) * FRAME_DURATION]) =
          animateTick (((m + 1 : ℕ) : ℚ) * FRAME_DURATION) (runTicks ⟨0, 0⟩ (uniformTicks m)) := by
        unfold runTicks
        rw [List.foldl_append]
        rfl
      rw [hfold, ih]
      have hdelta : ((m + 1 : ℕ) : ℚ) * FRAME_DURATION - (m : ℚ) * FRAME_DURATION =
          FRAME_DURATION := by push_cast; ring
      unfold animateTick
      simp only [hdelta]
      rw [if_pos (le_refl FRAME_DURATION)]
      have hmod : jsMod FRAME_DURATION FRAME_DURATION = 0 := by
        unfold jsMod
        rw [div_self (ne_of_gt hF)]
        simp
      simp only [hmod]
      congr 1
      push_cast
      ring

set_option maxRecDepth 4000 in
/-- C2, witness: a uniform 60 Hz tick source over 10 seconds satisfies
the hypotheses, and the run performs exactly 600 updates, within one of
600. -/
theorem frame_pacing_witness :
    (TickChain 0 (uniformTicks 600) ∧
      10000 ≤ (uniformTicks 600).getLastD 0 ∧
      (uniformTicks 600).getLastD 0 < 10000 + FRAME_DURATION) ∧
    (600 - 1 ≤ (runTicks ⟨0, 0⟩ (uniformTicks 600)).updates ∧
      (runTicks ⟨0, 0⟩ (uniformTicks 600)).updates ≤ 600 + 1) := by
  have h1 : (10000 : ℚ) ≤ (uniformTicks 600).getLastD 0 := by
    rw [uniformTicks_last]
    norm_num [FRAME_DURATION]
  have h2 : (uniformTicks 600).getLastD 0 < 10000 + FRAME_DURATION := by
    rw [uniformTicks_last]
    norm_num [FRAME_DURATION]
  exact ⟨⟨uniformTicks_chain 600, h1, h2⟩,
    (frame_pacing (uniformTicks 600) (uniformTicks_chain 600) h1 h2).1⟩

/-! ## Fireworks rockets (view.js lines 1319-1409)

The rocket subsystem of updateFireworksParticles.  The sparkle-particle
part of the routine only touches the pool, never `this.rockets`, and the
click detonation (createExplosion in fireworks style, lines 944-956)
detonates an ad-hoc local rocket without adding it to `this.rockets`, so
the rocket list is changed only by the launch timer and the per-rocket
update loop embedded here.  Math.random() draws are explicit inputs. -/

/-- Math.round: round half toward positive infinity. -/
def jsRound (x : ℚ) : ℤ := ⌊x + 1 / 2⌋

/-- Launch rate (line 1324): `Math.max(25, Math.round(180 - attraction * 155))`. -/
def launchInterval (attraction : ℚ) : ℤ :=
  max 25 (jsRound (180 - attraction * 155))

/-- The Math.random() draws consumed by one launchRocket call
(lines 1367-1379). -/
structure RocketRand where
  rx : ℚ
  ry : ℚ
  rvx : ℚ
  rspeed : ℚ
  deriving Repr, DecidableEq

/-- launchRocket (lines 1367-1379): scattered start in the lower screen,
upward speed 7-12. -/
def launchRocket (W H : ℚ) (r : RocketRand) : Rocket :=
  { x := r.rx * W
    y := H * (45 / 100 + r.ry * 45 / 100)
    vx := (r.rvx - 1 / 2) * (3 / 2)
    vy := -(7 + r.rspeed * 5) }

/-- One physics step of a rocket (lines 1338-1340): gravity decelerates
the ascent, then the position advances by the new velocity. -/
def updateRocket (r : Rocket) : Rocket :=
  { x := r.x + r.vx, y := r.y + (r.vy + 9 / 100), vx := r.vx, vy := r.vy + 9 / 100 }

/-- A rocket stays in the list after its update (lines 1341-1347) when it
neither explodes (vy ≥ -0.3) nor left the screen upward (y < -100). -/
def rocketSurvives (r : Rocket) : Bool :=
  decide (r.vy < -(3 / 10)) && decide (-(100 : ℚ) ≤ r.y)

structure FwState where
  rockets : List Rocket
  timer : ℕ
  deriving Repr, DecidableEq

/-- The Math.random() draws consumed by one updateFireworksParticles tick:
the draw deciding the occasional double launch (line 1331) and the draws
of the up-to-two launchRocket calls. -/
structure FwTickInput where
  dblRand : ℚ
  rand1 : RocketRand
  rand2 : RocketRand
  deriving Repr, DecidableEq

/-- Rocket management of updateFireworksParticles (lines 1327-1348): the
launch timer increments; when it reaches the launch interval and fewer
than 12 rockets are alive, one rocket is launched, a second with
probability 0.35, and the timer resets; afterwards every rocket (new ones
included) is updated and the exploded or escaped ones are removed --- the
reverse-iteration splice loop is rendered as map-then-filter. -/
def fwTick (W H attraction : ℚ) (inp : FwTickInput) (s : FwState) : FwState :=
  let t1 := s.timer + 1
  if launchInterval attraction ≤ (t1 : ℤ) ∧ s.rockets.length < 12 then
    let news := [launchRocket W H inp.rand1] ++
      (if inp.dblRand < 35 / 100 then [launchRocket W H inp.rand2] else [])
    { rockets := ((s.rockets ++ news).map updateRocket).filter rocketSurvives,
      timer := 0 }
  else
    { rockets := (s.rockets.map updateRocket).filter rocketSurvives, timer := t1 }

/-- An interaction with the fireworks field: an update tick, or a click
detonation, which explodes an ad-hoc rocket into pool sparkles and leaves
`this.rockets` unchanged. -/
inductive FwAction where
  | tick : FwTickInput → FwAction
  | click : FwAction

def fwStep (W H attraction : ℚ) (s : FwState) : FwAction → FwState
  | FwAction.tick inp => fwTick W H attraction inp s
  | FwAction.click => s

/-- Validity of the randomness of an action: Math.random() yields values
in [0, 1). -/
def ValidFwAction : FwAction → Prop
  | FwAction.tick inp => (0 ≤ inp.rand1.rspeed ∧ inp.rand1.rspeed < 1) ∧
      (0 ≤ inp.rand2.rspeed ∧ inp.rand2.rspeed < 1)
  | FwAction.click => True

/-- Ghost invariant data: each live rocket paired with its age, the number
of completed ticks since its launch tick.  A live rocket still ascends
(vy < -0.3) yet has received age+1 gravity increments since launching at
speed below 12, bounding its vy from below; rockets from the same launch
event share an age (at most two of them, the occasional double), and
distinct launch events are at least 25 ticks apart, with no event more
recent than the timer indicates. -/
def AgesOk (timer : ℕ) (l : List (Rocket × ℕ)) : Prop :=
  (∀ p ∈ l, p.1.vy < -(3 / 10) ∧
      -12 + (9 / 100) * ((p.2 : ℚ) + 1) ≤ p.1.vy ∧ timer ≤ p.2) ∧
  (∀ p ∈ l, ∀ q ∈ l, p.2 = q.2 ∨ p.2 + 25 ≤ q.2 ∨ q.2 + 25 ≤ p.2) ∧
  (∀ a : ℕ, (l.map Prod.snd).count a ≤ 2)

def FwInv (s : FwState) : Prop :=
  ∃ l : List (Rocket × ℕ), l.map Prod.fst = s.rockets ∧ AgesOk s.timer l

theorem agesOk_age_le (timer : ℕ) (l : List (Rocket × ℕ)) (h : AgesOk timer l)
    (p : Rocket × ℕ) (hp : p ∈ l) : p.2 ≤ 128 := by
  obtain ⟨hvy, hlow, _⟩ := h.1 p hp
  have hq : (9 / 100 : ℚ) * ((p.2 : ℚ) + 1) < 12 - 3 / 10 := by linarith
  have hcast : (p.2 : ℚ) < 129 := by nlinarith
  have hnat : p.2 < 129 := by exact_mod_cast hcast
  omega

theorem agesOk_length (timer : ℕ) (l : List (Rocket × ℕ)) (h : AgesOk timer l) :
    l.length ≤ 12 := by
  classical
  set ages := l.map Prod.snd with hages
  have hlen : l.length = ages.length := (List.length_map _ _).symm
  have hbound : ∀ a ∈ ages, a ≤ 128 := by
    intro a ha
    rw [hages, List.mem_map] at ha
    obtain ⟨p, hp, hpa⟩ := ha
    exact hpa ▸ agesOk_age_le timer l h p hp
  have hgap : ∀ a ∈ ages, ∀ b ∈ ages, a = b ∨ a + 25 ≤ b ∨ b + 25 ≤ a := by
    intro a ha b hb
    rw [hages, List.mem_map] at ha hb
    obtain ⟨p, hp, hpa⟩ := ha
    obtain ⟨q, hq, hqb⟩ := hb
    subst hpa; subst hqb
    exact h.2.1 p hp q hq
  have hcount : ∀ a : ℕ, ages.count a ≤ 2 := h.2.2
  -- the number of distinct ages is at most six
  have hinj : Set.InjOn (fun a => a / 25) ages.toFinset := by
    intro a ha b hb hab
    simp only [Finset.coe_sort_coe, Finset.mem_coe, List.mem_toFinset] at ha hb
    have hab2 : a / 25 = b / 25 := hab
    rcases hgap a ha b hb with hhead | hle | hle
    · exact hhead
    · exfalso
      have h1 : (a + 25) / 25 ≤ b / 25 := Nat.div_le_div_right hle
      rw [Nat.add_div_right a (by norm_num)] at h1
      omega
    · exfalso
      have h1 : (b + 25) / 25 ≤ a / 25 := Nat.div_le_div_right hle
      rw [Nat.add_div_right b (by norm_num)] at h1
      omega
  have hmaps : ∀ a ∈ ages.toFinset, a / 25 ∈ Finset.range 6 := by
    intro a ha
    simp only [List.mem_toFinset] at ha
    have := hbound a ha
    simp only [Finset.mem_range]
    omega
  have hcard : ages.toFinset.card ≤ 6 := by
    simpa using Finset.card_le_card_of_injOn (fun a => a / 25) hmaps hinj
  have hsum : ∑ a in ages.toFinset, ages.count a = ages.length := by
    have hms := Multiset.toFinset_sum_count_eq (ages : Multiset ℕ)
    simp only [Multiset.coe_count, Multiset.coe_card] at hms
    exact hms
  have : ages.length ≤ 12 := by
    rw [← hsum]
    calc ∑ a in ages.toFinset, ages.count a ≤ ∑ _a in ages.toFinset, 2 :=
          Finset.sum_le_sum (fun a _ => hcount a)
      _ = ages.toFinset.card * 2 := by
          rw [Finset.sum_const, smul_eq_mul]
      _ ≤ 6 * 2 := by omega
      _ = 12 := by norm_num
  omega

/-- Per-tick transformation of the ghost list matching the rocket update
loop: each rocket receives its gravity step, ages by one tick, and the
exploded or escaped ones drop out. -/
def ageStep (l : List (Rocket × ℕ)) : List (Rocket × ℕ) :=
  (l.map (fun p => (updateRocket p.1, p.2 + 1))).filter (fun p => rocketSurvives p.1)

theorem ageStep_map_fst (l : List (Rocket × ℕ)) :
    (ageStep l).map Prod.fst = ((l.map Prod.fst).map updateRocket).filter rocketSurvives := by
  induction l with
  | nil => rfl
  | cons p l ih =>
      unfold ageStep at *
      simp only [List.map_cons, List.filter_cons]
      by_cases hs : rocketSurvives (updateRocket p.1) = true
      · simp [hs, ih]
      · simp [hs, ih]

theorem mem_ageStep (l : List (Rocket × ℕ)) (p : Rocket × ℕ) (hp : p ∈ ageStep l) :
    ∃ q ∈ l, p = (updateRocket q.1, q.2 + 1) ∧
      rocketSurvives (updateRocket q.1) = true := by
  unfold ageStep at hp
  rw [List.mem_filter] at hp
  obtain ⟨hmem, hs⟩ := hp
  rw [List.mem_map] at hmem
  obtain ⟨q, hq, hgq⟩ := hmem
  refine ⟨q, hq, hgq.symm, ?_⟩
  rw [← hgq] at hs
  exact hs

theorem rocketSurvives_vy (r : Rocket) (h : rocketSurvives r = true) :
    r.vy < -(3 / 10) := by
  unfold rocketSurvives at h
  rw [Bool.and_eq_true] at h
  exact of_decide_eq_true h.1

theorem count_map_succ (l : List ℕ) (a : ℕ) :
    (l.map (· + 1)).count (a + 1) = l.count a :=
  List.count_map_of_injective l _ (fun x y h => by omega) a

theorem count_map_succ_zero (l : List ℕ) : (l.map (· + 1)).count 0 = 0 := by
  rw [List.count_eq_zero]
  intro h
  rw [List.mem_map] at h
  obtain ⟨x, _, hx⟩ := h
  omega

theorem ageStep_snd_sublist (l : List (Rocket × ℕ)) :
    ((ageStep l).map Prod.snd).Sublist ((l.map Prod.snd).map (· + 1)) := by
  have hsub : (ageStep l).Sublist (l.map (fun p => (updateRocket p.1, p.2 + 1))) :=
    List.filter_sublist _
  have hsub2 := hsub.map Prod.snd
  have heq : ((l.map (fun p => (updateRocket p.1, p.2 + 1))).map Prod.snd) =
      (l.map Prod.snd).map (· + 1) := by
    rw [List.map_map, List.map_map]
    rfl
  rwa [heq] at hsub2

theorem agesOk_ageStep (timer : ℕ) (l : List (Rocket × ℕ)) (h : AgesOk timer l) :
    AgesOk (timer + 1) (ageStep l) := by
  refine ⟨?_, ?_, ?_⟩
  · intro p hp
    obtain ⟨q, hq, hpe, hsv⟩ := mem_ageStep l p hp
    obtain ⟨hvy, hlow, htm⟩ := h.1 q hq
    subst hpe
    refine ⟨rocketSurvives_vy _ hsv, ?_, by simp; omega⟩
    have hupd : (updateRocket q.1).vy = q.1.vy + 9 / 100 := rfl
    show -12 + 9 / 100 * (((q.2 + 1 : ℕ) : ℚ) + 1) ≤ (updateRocket q.1).vy
    rw [hupd]
    push_cast
    linarith
  · intro p hp q hq
    obtain ⟨p0, hp0, hpe, _⟩ := mem_ageStep l p hp
    obtain ⟨q0, hq0, hqe, _⟩ := mem_ageStep l q hq
    subst hpe
    subst hqe
    have := h.2.1 p0 hp0 q0 hq0
    simp only
    omega
  · intro a
    have hle := (ageStep_snd_sublist l).count_le a
    cases a with
    | zero =>
        rw [count_map_succ_zero] at hle
        omega
    | succ b =>
        rw [count_map_succ] at hle
        exact le_trans hle (h.2.2 b)

theorem newPart_map_fst (news : List Rocket) :
    ((news.map (fun r => (updateRocket r, 0))).filter
        (fun p => rocketSurvives p.1)).map Prod.fst =
      (news.map updateRocket).filter rocketSurvives := by
  induction news with
  | nil => rfl
  | cons r news ih =>
      simp only [List.map_cons, List.filter_cons]
      by_cases hs : rocketSurvives (updateRocket r) = true
      · simp [hs, ih]
      · simp [hs, ih]

theorem newPart_snd_length (news : List Rocket) :
    (((news.map (fun r => (updateRocket r, 0))).filter
        (fun p => rocketSurvives p.1)).map Prod.snd).length ≤ news.length := by
  rw [List.length_map]
  have h2 : ((news.map (fun r => (updateRocket r, 0))).filter
      (fun p => rocketSurvives p.1)).length ≤
        (news.map (fun r => (updateRocket r, 0))).length :=
    (List.filter_sublist _).length_le
  rwa [List.length_map] at h2

theorem mem_newPart (news : List Rocket) (p : Rocket × ℕ)
    (hp : p ∈ (news.map (fun r => (updateRocket r, 0))).filter
      (fun p => rocketSurvives p.1)) :
    ∃ r ∈ news, p = (updateRocket r, 0) ∧ rocketSurvives (updateRocket r) = true := by
  rw [List.mem_filter] at hp
  obtain ⟨hmem, hs⟩ := hp
  rw [List.mem_map] at hmem
  obtain ⟨r, hr, hgr⟩ := hmem
  refine ⟨r, hr, hgr.symm, ?_⟩
  rw [← hgr] at hs
  exact hs

set_option maxHeartbeats 1000000 in
/-- Preservation of the rocket invariant across one update tick. -/
theorem fwInv_tick (W H attraction : ℚ) (inp : FwTickInput)
    (hr1 : 0 ≤ inp.rand1.rspeed ∧ inp.rand1.rspeed < 1)
    (hr2 : 0 ≤ inp.rand2.rspeed ∧ inp.rand2.rspeed < 1)
    (s : FwState) (h : FwInv s) : FwInv (fwTick W H attraction inp s) := by
  classical
  obtain ⟨l, hl, hok⟩ := h
  simp only [fwTick]
  by_cases hfire : launchInterval attraction ≤ ((s.timer + 1 : ℕ) : ℤ) ∧
      s.rockets.length < 12
  · rw [if_pos hfire]
    have hint : (25 : ℤ) ≤ launchInterval attraction := le_max_left _ _
    have htimer : 24 ≤ s.timer := by
      have h25 : (25 : ℤ) ≤ ((s.timer + 1 : ℕ) : ℤ) := le_trans hint hfire.1
      omega
    set news := [launchRocket W H inp.rand1] ++
      (if inp.dblRand < 35 / 100 then [launchRocket W H inp.rand2] else [])
      with hnews
    have hnews_len : news.length ≤ 2 := by
      rw [hnews]
      by_cases hdbl : inp.dblRand < 35 / 100
      · simp [hdbl]
      · simp [hdbl]
    have hnews_vy : ∀ r ∈ news, -12 + (9 / 100 : ℚ) * ((0 : ℕ) + 1) ≤
        (updateRocket r).vy := by
      intro r hr
      have hist : r = launchRocket W H inp.rand1 ∨ r = launchRocket W H inp.rand2 := by
        rw [hnews] at hr
        by_cases hdbl : inp.dblRand < 35 / 100
        · simp [hdbl] at hr
          tauto
        · simp [hdbl] at hr
          exact Or.inl hr
      have hb : ∀ rr : RocketRand, 0 ≤ rr.rspeed → rr.rspeed < 1 →
          -12 + (9 / 100 : ℚ) * ((0 : ℕ) + 1) ≤ (updateRocket (launchRocket W H rr)).vy := by
        intro rr h0 h1
        have : (updateRocket (launchRocket W H rr)).vy = -(7 + rr.rspeed * 5) + 9 / 100 := rfl
        rw [this]
        push_cast
        linarith
      rcases hist with hre | hre
      · exact hre ▸ hb inp.rand1 hr1.1 hr1.2
      · exact hre ▸ hb inp.rand2 hr2.1 hr2.2
    clear_value news
    refine ⟨ageStep l ++ (news.map (fun r => (updateRocket r, 0))).filter
        (fun p => rocketSurvives p.1), ?_, ?_, ?_, ?_⟩
    · have hrhs : List.filter rocketSurvives (List.map updateRocket (s.rockets ++ news)) =
          List.filter rocketSurvives (List.map updateRocket s.rockets) ++
            List.filter rocketSurvives (List.map updateRocket news) := by
        rw [List.map_append, List.filter_append]
      dsimp only
      rw [List.map_append, ageStep_map_fst, newPart_map_fst, hl, hrhs]
    · intro p hp
      rw [List.mem_append] at hp
      dsimp only
      rcases hp with hp | hp
      · obtain ⟨q, hq, hpe, hsv⟩ := mem_ageStep l p hp
        obtain ⟨hvy, hlow, htm⟩ := hok.1 q hq
        subst hpe
        refine ⟨rocketSurvives_vy _ hsv, ?_, by dsimp only; omega⟩
        have hupd : (updateRocket q.1).vy = q.1.vy + 9 / 100 := rfl
        show -12 + 9 / 100 * (((q.2 + 1 : ℕ) : ℚ) + 1) ≤ (updateRocket q.1).vy
        rw [hupd]
        push_cast
        linarith
      · obtain ⟨r, hr, hpe, hsv⟩ := mem_newPart news p hp
        subst hpe
        refine ⟨rocketSurvives_vy _ hsv, ?_, by dsimp only; omega⟩
        exact hnews_vy r hr
    · intro p hp q hq
      rw [List.mem_append] at hp hq
      rcases hp with hp | hp <;> rcases hq with hq | hq
      · obtain ⟨p0, hp0, hpe, _⟩ := mem_ageStep l p hp
        obtain ⟨q0, hq0, hqe, _⟩ := mem_ageStep l q hq
        subst hpe
        subst hqe
        have := hok.2.1 p0 hp0 q0 hq0
        dsimp only
        omega
      · obtain ⟨p0, hp0, hpe, _⟩ := mem_ageStep l p hp
        obtain ⟨r, _, hqe, _⟩ := mem_newPart news q hq
        subst hpe
        subst hqe
        have := (hok.1 p0 hp0).2.2
        dsimp only
        omega
      · obtain ⟨r, _, hpe, _⟩ := mem_newPart news p hp
        obtain ⟨q0, hq0, hqe, _⟩ := mem_ageStep l q hq
        subst hpe
        subst hqe
        have := (hok.1 q0 hq0).2.2
        dsimp only
        omega
      · obtain ⟨r, _, hpe, _⟩ := mem_newPart news p hp
        obtain ⟨r2, _, hqe, _⟩ := mem_newPart news q hq
        subst hpe
        subst hqe
        dsimp only
        omega
    · intro a
      rw [List.map_append, List.count_append]
      have hnew_all_zero : ∀ x ∈ ((news.map (fun r => (updateRocket r, 0))).filter
          (fun p => rocketSurvives p.1)).map Prod.snd, x = 0 := by
        intro x hx
        rw [List.mem_map] at hx
        obtain ⟨p, hp, hpx⟩ := hx
        obtain ⟨r, _, hpe, _⟩ := mem_newPart news p hp
        rw [hpe] at hpx
        exact hpx.symm
      have hold := (ageStep_snd_sublist l).count_le a
      cases a with
      | zero =>
          rw [count_map_succ_zero] at hold
          have hnewlen : (((news.map (fun r => (updateRocket r, 0))).filter
              (fun p => rocketSurvives p.1)).map Prod.snd).count 0 ≤ 2 :=
            le_trans (List.count_le_length _ _)
              (le_trans (newPart_snd_length news) hnews_len)
          omega
      | succ b =>
          rw [count_map_succ] at hold
          have hz : (((news.map (fun r => (updateRocket r, 0))).filter
              (fun p => rocketSurvives p.1)).map Prod.snd).count (b + 1) = 0 := by
            rw [List.count_eq_zero]
            intro hmem
            have := hnew_all_zero _ hmem
            omega
          have := hok.2.2 b
          omega
  · rw [if_neg hfire]
    exact ⟨ageStep l, by rw [ageStep_map_fst, hl], agesOk_ageStep s.timer l hok⟩

theorem fwInv_run (W H attraction : ℚ) (acts : List FwAction) :
    ∀ s : FwState, (∀ a ∈ acts, ValidFwAction a) → FwInv s →
      FwInv (acts.foldl (fwStep W H attraction) s) := by
  induction acts with
  | nil => intro s _ h; exact h
  | cons a acts ih =>
      intro s hv h
      have hstep : FwInv (fwStep W H attraction s a) := by
        cases a with
        | tick inp =>
            have hva := hv _ (List.mem_cons_self _ _)
            exact fwInv_tick W H attraction inp hva.1 hva.2 s h
        | click => exact h
      exact ih _ (fun b hb => hv b (List.mem_cons_of_mem _ hb)) hstep

/-- C6: in fireworks style, starting from no rockets, the number of
concurrently alive rockets never exceeds 12, for every sequence of
update ticks (with their launch timer and occasional double launch) and
click detonations, whatever the Math.random() draws in [0, 1).  Although
the double launch is not re-guarded (the length test happens once before
the first launch of a tick), a rocket launched at speed below 12 must
explode within 130 ticks while launch events are at least 25 ticks
apart, so at most five launch events can have surviving rockets when a
new launch fires, hence at most 10 + 2 = 12 rockets. -/
theorem rocket_bound (W H attraction : ℚ) (acts : List FwAction)
    (hv : ∀ a ∈ acts, ValidFwAction a) :
    (acts.foldl (fwStep W H attraction) ⟨[], 0⟩).rockets.length ≤ 12 := by
  have hinv0 : FwInv ⟨[], 0⟩ := by
    refine ⟨[], rfl, ?_, ?_, ?_⟩
    · intro p hp; cases hp
    · intro p hp; cases hp
    · intro a; simp
  obtain ⟨l, hl, hok⟩ := fwInv_run W H attraction acts ⟨[], 0⟩ hv hinv0
  have hlen : (acts.foldl (fwStep W H attraction) ⟨[], 0⟩).rockets.length = l.length := by
    rw [← hl, List.length_map]
  rw [hlen]
  exact agesOk_length _ l hok

/-- C6, witness: a single valid update tick followed by a click keeps
the rocket count at most 12. -/
theorem rocket_bound_witness :
    (∀ a ∈ [FwAction.tick ⟨0, ⟨0, 0, 0, 0⟩, ⟨0, 0, 0, 0⟩⟩, FwAction.click],
        ValidFwAction a) ∧
      (([FwAction.tick ⟨0, ⟨0, 0, 0, 0⟩, ⟨0, 0, 0, 0⟩⟩,
          FwAction.click].foldl (fwStep 1000 800 (1 / 2)) ⟨[], 0⟩).rockets.length ≤ 12) := by
  have hv : ∀ a ∈ [FwAction.tick ⟨0, ⟨0, 0, 0, 0⟩, ⟨0, 0, 0, 0⟩⟩, FwAction.click],
      ValidFwAction a := by
    intro a ha
    rw [List.mem_cons] at ha
    rcases ha with rfl | ha
    · exact ⟨⟨by norm_num, by norm_num⟩, ⟨by norm_num, by norm_num⟩⟩
    · rw [List.mem_cons] at ha
      rcases ha with rfl | ha
      · exact trivial
      · cases ha
  exact ⟨hv, rocket_bound 1000 800 (1 / 2) _ hv⟩

/-! ## The particle-field physics update (view.js lines 1202-1317)

The per-particle body of updateFieldParticles.  The particle record
carries the numeric fields of createParticleObject (lines 208-235; the
pool template misspells the home fields as homX/homY, but every writer
and reader uses the dynamically added homeX/homeY, which are the fields
kept here; the colour strings do not enter the physics).  Math.sin,
Math.cos and Math.sqrt are transcendental and enter the embedding as
explicit function parameters; every theorem below holds for all choices
of these primitives. -/

structure Particle where
  x : ℚ
  y : ℚ
  homeX : ℚ
  homeY : ℚ
  vx : ℚ
  vy : ℚ
  baseSize : ℚ
  size : ℚ
  opacity : ℚ
  birthTime : ℚ
  maxLife : ℚ
  shimmerPhase : ℚ
  shimmerSpeed : ℚ
  rotation : ℚ
  rotationSpeed : ℚ
  colorIndex : ℚ
  colorCycleSpeed : ℚ
  isExplosion : Bool
  explosionLife : ℚ
  driftAngle : ℚ
  driftSpeed : ℚ
  driftPhase : ℚ

/-- The Math primitives used by the field update. -/
structure MathPrims where
  sin : ℚ → ℚ
  cos : ℚ → ℚ
  sqrt : ℚ → ℚ

structure FieldConfig where
  fieldParticleStyle : String
  fieldColorPalette : String
  fieldMouseAttraction : ℚ
  fieldSpreadStrength : ℚ

structure FieldEnv where
  logicalWidth : ℚ
  logicalHeight : ℚ
  mouseX : ℚ
  mouseY : ℚ
  mouseInViewport : Bool

/-- Colour cycling condition (lines 1211-1212): always cycle for
love-bomb, skip for pride-confetti and for the custom palette. -/
def shouldCycle (cfg : FieldConfig) : Bool :=
  (cfg.fieldParticleStyle == "love-bomb") ||
    (!(cfg.fieldColorPalette == "custom") && !(cfg.fieldParticleStyle == "pride-confetti"))

/-- Colour cycling (lines 1213-1215): `(colorIndex + colorCycleSpeed) % 1`. -/
def colorPhase (cfg : FieldConfig) (p : Particle) : Particle :=
  if shouldCycle cfg then
    { p with colorIndex := jsMod (p.colorIndex + p.colorCycleSpeed) 1 }
  else p

/-- Explosion branch of the field update (lines 1218-1227): linear decay
of explosionLife, opacity derived from it, position advanced by the
velocity, velocity decayed. -/
def explosionPhase (p : Particle) : Particle :=
  { p with explosionLife := p.explosionLife - 2 / 100
           opacity := max 0 (p.explosionLife - 2 / 100)
           x := p.x + p.vx
           y := p.y + p.vy
           vx := p.vx * (95 / 100)
           vy := p.vy * (95 / 100) }

/-- Ambient drift (lines 1234-1239). -/
def driftForce (m : MathPrims) (p : Particle) : Particle :=
  let driftPhase := p.driftPhase + 15 / 1000
  let driftX := m.cos (p.driftAngle + driftPhase) * p.driftSpeed
  let driftY := m.sin (p.driftAngle + driftPhase * (7 / 10)) * p.driftSpeed
  { p with driftPhase := driftPhase
           vx := p.vx + driftX * (3 / 100)
           vy := p.vy + driftY * (3 / 100) }

/-- Mouse attraction, or the spring toward home when the pointer has left
the viewport (lines 1242-1274). -/
def mouseForce (m : MathPrims) (cfg : FieldConfig) (env : FieldEnv)
    (p : Particle) : Particle :=
  if env.mouseInViewport then
    let dx := env.mouseX - p.x
    let dy := env.mouseY - p.y
    let distance := m.sqrt (dx * dx + dy * dy)
    let maxAttractionDistance := max env.logicalWidth env.logicalHeight
    if 0 < distance ∧ distance < maxAttractionDistance then
      let normalizedDistance := distance / maxAttractionDistance
      let attractionStrength := (1 - normalizedDistance) ^ 3
      let force := attractionStrength * cfg.fieldMouseAttraction * (8 / 100)
      { p with vx := p.vx + dx / distance * force
               vy := p.vy + dy / distance * force }
    else p
  else
    let dx := p.homeX - p.x
    let dy := p.homeY - p.y
    let distance := m.sqrt (dx * dx + dy * dy)
    if 1 < distance then
      let returnForce := (2 : ℚ) / 1000
      { p with vx := p.vx + dx / distance * returnForce * distance * (5 / 100)
               vy := p.vy + dy / distance * returnForce * distance * (5 / 100) }
    else p

/-- Pairwise soft repulsion against the remaining active particles
(lines 1277-1290, the particles at indices above i). -/
def separationForce (m : MathPrims) (cfg : FieldConfig)
    (others : List Particle) (p : Particle) : Particle :=
  others.foldl (fun p other =>
    if other.isExplosion then p
    else
      let dx2 := other.x - p.x
      let dy2 := other.y - p.y
      let dist2 := m.sqrt (dx2 * dx2 + dy2 * dy2)
      if 0 < dist2 ∧ dist2 < 30 then
        let force := (30 - dist2) / 30 * cfg.fieldSpreadStrength * (5 / 100)
        { p with vx := p.vx - dx2 / dist2 * force
                 vy := p.vy - dy2 / dist2 * force }
      else p) p

/-- Edge wrapping (lines 1304-1307): two successive conditional
assignments. -/
def wrapCoord (limit x : ℚ) : ℚ :=
  let x1 := if x < 0 then limit else x
  if limit < x1 then 0 else x1

/-- Shared tail of the update (lines 1293-1315): apply the velocity,
damp it for non-explosion particles, wrap at the edges, advance the
shimmer and the rotation. -/
def fieldKinematics (m : MathPrims) (W H : ℚ) (p : Particle) : Particle :=
  let x := wrapCoord W (p.x + p.vx)
  let y := wrapCoord H (p.y + p.vy)
  let vx := if p.isExplosion then p.vx else p.vx * (95 / 100)
  let vy := if p.isExplosion then p.vy else p.vy * (95 / 100)
  let shimmerPhase := p.shimmerPhase + p.shimmerSpeed
  let shimmer := (m.sin shimmerPhase + 1) / 2
  { p with x := x, y := y, vx := vx, vy := vy
           shimmerPhase := shimmerPhase
           size := p.baseSize * (7 / 10 + shimmer * (3 / 10))
           rotation := p.rotation + p.rotationSpeed }

/-- One updateFieldParticles step for a single active particle; `none`
means the particle was released back to the pool (line 1229). -/
def updateFieldOne (m : MathPrims) (cfg : FieldConfig) (env : FieldEnv)
    (others : List Particle) (p : Particle) : Option Particle :=
  let p1 := colorPhase cfg p
  if p1.isExplosion then
    let p2 := explosionPhase p1
    if p2.explosionLife ≤ 0 then none
    else some (fieldKinematics m env.logicalWidth env.logicalHeight p2)
  else
    some (fieldKinematics m env.logicalWidth env.logicalHeight
      (separationForce m cfg others (mouseForce m cfg env (driftForce m p1))))

/-- Iterated per-particle update across ticks; a released particle
(`none`) stays released. -/
def iterateField (m : MathPrims) (cfg : FieldConfig) (env : FieldEnv)
    (others : List Particle) : ℕ → Particle → Option Particle
  | 0, p => some p
  | k + 1, p =>
      (updateFieldOne m cfg env others p).bind (iterateField m cfg env others k)

theorem colorPhase_fields (cfg : FieldConfig) (p : Particle) :
    (colorPhase cfg p).isExplosion = p.isExplosion ∧
      (colorPhase cfg p).explosionLife = p.explosionLife ∧
      (colorPhase cfg p).opacity = p.opacity := by
  unfold colorPhase
  by_cases h : shouldCycle cfg
  · simp [h]
  · simp [h]

theorem fieldKinematics_fields (m : MathPrims) (W H : ℚ) (p : Particle) :
    (fieldKinematics m W H p).isExplosion = p.isExplosion ∧
      (fieldKinematics m W H p).explosionLife = p.explosionLife ∧
      (fieldKinematics m W H p).opacity = p.opacity ∧
      (fieldKinematics m W H p).x = wrapCoord W (p.x + p.vx) ∧
      (fieldKinematics m W H p).y = wrapCoord H (p.y + p.vy) :=
  ⟨rfl, rfl, rfl, rfl, rfl⟩

/-- Characterisation of the update on an explosion-flagged particle. -/
theorem updateFieldOne_explosion (m : MathPrims) (cfg : FieldConfig)
    (env : FieldEnv) (others : List Particle) (p : Particle)
    (hexp : p.isExplosion = true) :
    (p.explosionLife - 2 / 100 ≤ 0 →
        updateFieldOne m cfg env others p = none) ∧
    (0 < p.explosionLife - 2 / 100 →
      ∃ q : Particle, updateFieldOne m cfg env others p = some q ∧
        q.explosionLife = p.explosionLife - 2 / 100 ∧
        q.opacity = max 0 (p.explosionLife - 2 / 100) ∧
        q.isExplosion = true) := by
  obtain ⟨he1, he2, _⟩ := colorPhase_fields cfg p
  simp only [updateFieldOne]
  rw [he1, if_pos hexp]
  have hlife : (explosionPhase (colorPhase cfg p)).explosionLife =
      p.explosionLife - 2 / 100 := by
    unfold explosionPhase
    rw [← he2]
  constructor
  · intro hle
    rw [if_pos (by rw [hlife]; exact hle)]
  · intro hgt
    rw [if_neg (by rw [hlife]; exact not_le.mpr hgt)]
    refine ⟨_, rfl, ?_, ?_, ?_⟩
    · obtain ⟨_, hk2, _, _, _⟩ := fieldKinematics_fields m env.logicalWidth
        env.logicalHeight (explosionPhase (colorPhase cfg p))
      rw [hk2, hlife]
    · obtain ⟨_, _, hk3, _, _⟩ := fieldKinematics_fields m env.logicalWidth
        env.logicalHeight (explosionPhase (colorPhase cfg p))
      rw [hk3]
      unfold explosionPhase
      rw [← he2]
    · obtain ⟨hk1, _, _, _, _⟩ := fieldKinematics_fields m env.logicalWidth
        env.logicalHeight (explosionPhase (colorPhase cfg p))
      rw [hk1]
      unfold explosionPhase
      rw [← he1] at hexp
      exact hexp

/-- A good explosion particle: flagged, with nonnegative opacity at least
its remaining life — true of every explosion particle the engine spawns
(opacity 1, explosionLife at most 1 in field style). -/
def GoodExpl (p : Particle) : Prop :=
  p.isExplosion = true ∧ p.explosionLife ≤ p.opacity ∧ 0 ≤ p.opacity

theorem updateFieldOne_explosion_step (m : MathPrims) (cfg : FieldConfig)
    (env : FieldEnv) (others : List Particle) (p r : Particle)
    (hg : GoodExpl p) (hr : updateFieldOne m cfg env others p = some r) :
    GoodExpl r ∧ r.opacity ≤ p.opacity := by
  obtain ⟨hexp, hle, h0⟩ := hg
  by_cases hlife : p.explosionLife - 2 / 100 ≤ 0
  · exfalso
    rw [(updateFieldOne_explosion m cfg env others p hexp).1 hlife] at hr
    cases hr
  · obtain ⟨q, hq, hql, hqo, hqe⟩ :=
      (updateFieldOne_explosion m cfg env others p hexp).2 (by linarith)
    rw [hq] at hr
    injection hr with hr
    subst hr
    refine ⟨⟨hqe, ?_, ?_⟩, ?_⟩
    · rw [hql, hqo]
      exact le_max_right 0 _
    · rw [hqo]
      exact le_max_left 0 _
    · rw [hqo]
      exact max_le h0 (by linarith)

theorem iterateField_good (m : MathPrims) (cfg : FieldConfig) (env : FieldEnv)
    (others : List Particle) :
    ∀ (k : ℕ) (p : Particle), GoodExpl p →
      ∀ q : Particle, iterateField m cfg env others k p = some q → GoodExpl q := by
  intro k
  induction k with
  | zero =>
      intro p hg q hq
      unfold iterateField at hq
      injection hq with hq
      exact hq ▸ hg
  | succ n ih =>
      intro p hg q hq
      cases hup : updateFieldOne m cfg env others p with
      | none =>
          have hnone : iterateField m cfg env others (n + 1) p = none := by
            show (updateFieldOne m cfg env others p).bind
              (iterateField m cfg env others n) = none
            rw [hup]
            rfl
          rw [hnone] at hq
          cases hq
      | some r =>
          have hstep : iterateField m cfg env others (n + 1) p =
              iterateField m cfg env others n r := by
            show (updateFieldOne m cfg env others p).bind
              (iterateField m cfg env others n) = _
            rw [hup]
            rfl
          rw [hstep] at hq
          exact ih r (updateFieldOne_explosion_step m cfg env others p r hg hup).1 q hq

theorem iterateField_succ_back (m : MathPrims) (cfg : FieldConfig) (env : FieldEnv)
    (others : List Particle) :
    ∀ (k : ℕ) (p : Particle),
      iterateField m cfg env others (k + 1) p =
        (iterateField m cfg env others k p).bind (updateFieldOne m cfg env others) := by
  intro k
  induction k with
  | zero =>
      intro p
      show (updateFieldOne m cfg env others p).bind (iterateField m cfg env others 0) =
        (some p).bind (updateFieldOne m cfg env others)
      cases hup : updateFieldOne m cfg env others p with
      | none => exact hup.symm
      | some r => exact hup.symm
  | succ n ih =>
      intro p
      cases hup : updateFieldOne m cfg env others p with
      | none =>
          have hL : iterateField m cfg env others (n + 1) p = none := by
            show (updateFieldOne m cfg env others p).bind
              (iterateField m cfg env others n) = none
            rw [hup]
            rfl
          show (updateFieldOne m cfg env others p).bind
            (iterateField m cfg env others (n + 1)) = _
          rw [hup, hL]
          rfl
      | some r =>
          have hR : iterateField m cfg env others (n + 1) p =
              iterateField m cfg env others n r := by
            show (updateFieldOne m cfg env others p).bind
              (iterateField m cfg env others n) = _
            rw [hup]
            rfl
          show (updateFieldOne m cfg env others p).bind
            (iterateField m cfg env others (n + 1)) = _
          rw [hup, hR]
          show iterateField m cfg env others (n + 1) r = _
          exact ih r

theorem iterateField_some_life (m : MathPrims) (cfg : FieldConfig) (env : FieldEnv)
    (others : List Particle) :
    ∀ (k : ℕ) (p : Particle), p.isExplosion = true →
      0 < p.explosionLife - (k : ℚ) * (2 / 100) →
      ∃ q : Particle, iterateField m cfg env others k p = some q ∧
        q.explosionLife = p.explosionLife - (k : ℚ) * (2 / 100) ∧
        q.isExplosion = true := by
  intro k
  induction k with
  | zero =>
      intro p hexp hpos
      refine ⟨p, rfl, ?_, hexp⟩
      push_cast
      ring
  | succ n ih =>
      intro p hexp hpos
      have hkq : (0 : ℚ) ≤ (n : ℚ) * (2 / 100) := by positivity
      have h1 : 0 < p.explosionLife - 2 / 100 := by
        push_cast at hpos
        nlinarith
      obtain ⟨r, hr, hrl, hro, hre⟩ :=
        (updateFieldOne_explosion m cfg env others p hexp).2 h1
      have h2 : 0 < r.explosionLife - (n : ℚ) * (2 / 100) := by
        rw [hrl]
        push_cast at hpos
        linarith
      obtain ⟨q, hq, hql, hqe⟩ := ih r hre h2
      refine ⟨q, ?_, ?_, hqe⟩
      · show (updateFieldOne m cfg env others p).bind
          (iterateField m cfg env others n) = some q
        rw [hr]
        exact hq
      · rw [hql, hrl]
        push_cast
        ring

/-- C3: for an explosion-flagged particle updated by the field update
(with opacity at least its remaining life and nonnegative, as at every
spawn site), the opacity after each further tick never exceeds the
opacity before it; and with the fixed decay of 0.02 per tick, a particle
starting at explosionLife 1 survives every one of the first 49 updates
and is released back to the pool exactly at the 50th. -/
theorem explosion_decay (m : MathPrims) (cfg : FieldConfig) (env : FieldEnv)
    (others : List Particle) (p : Particle)
    (hexp : p.isExplosion = true) (hle : p.explosionLife ≤ p.opacity)
    (h0 : 0 ≤ p.opacity) :
    (∀ (k : ℕ) (q q' : Particle),
        iterateField m cfg env others k p = some q →
        iterateField m cfg env others (k + 1) p = some q' →
        q'.opacity ≤ q.opacity) ∧
    (p.explosionLife = 1 →
      iterateField m cfg env others 50 p = none ∧
      ∀ k : ℕ, k < 50 → iterateField m cfg env others k p ≠ none) := by
  have hgood : GoodExpl p := ⟨hexp, hle, h0⟩
  constructor
  · intro k q q' hq hq2
    have hgq : GoodExpl q := iterateField_good m cfg env others k p hgood q hq
    rw [iterateField_succ_back, hq] at hq2
    have hq3 : updateFieldOne m cfg env others q = some q' := hq2
    exact (updateFieldOne_explosion_step m cfg env others q q' hgq hq3).2
  · intro hone
    constructor
    · obtain ⟨q, hq, hql, hqe⟩ := iterateField_some_life m cfg env others 49 p hexp
        (by rw [hone]; norm_num)
      show iterateField m cfg env others (49 + 1) p = none
      rw [iterateField_succ_back, hq]
      show updateFieldOne m cfg env others q = none
      apply (updateFieldOne_explosion m cfg env others q hqe).1
      rw [hql, hone]
      norm_num
    · intro k hk
      have hq : 0 < p.explosionLife - (k : ℚ) * (2 / 100) := by
        rw [hone]
        have : (k : ℚ) ≤ 49 := by exact_mod_cast Nat.lt_succ_iff.mp hk
        nlinarith
      obtain ⟨q, hq2, _, _⟩ := iterateField_some_life m cfg env others k p hexp hq
      rw [hq2]
      exact Option.some_ne_none q

/-- Sample Math primitives and configuration for the evaluation
witnesses. -/
def mathZero : MathPrims := ⟨fun _ => 0, fun _ => 0, fun _ => 0⟩

def sampleFieldConfig : FieldConfig :=
  { fieldParticleStyle := "glitter", fieldColorPalette := "metallic",
    fieldMouseAttraction := 1 / 2, fieldSpreadStrength := 3 / 10 }

def sampleFieldEnv : FieldEnv :=
  { logicalWidth := 1000, logicalHeight := 800, mouseX := 500, mouseY := 400,
    mouseInViewport := true }

/-- A freshly spawned field burst particle (createExplosion, non-snow
branch): opacity 1, explosionLife 1, explosion-flagged. -/
def sampleBurstParticle : Particle :=
  { x := 0, y := 0, homeX := 0, homeY := 0, vx := 1, vy := 0, baseSize := 6,
    size := 6, opacity := 1, birthTime := 0, maxLife := 0, shimmerPhase := 0,
    shimmerSpeed := 0, rotation := 0, rotationSpeed := 0, colorIndex := 0,
    colorCycleSpeed := 2 / 1000, isExplosion := true, explosionLife := 1,
    driftAngle := 0, driftSpeed := 0, driftPhase := 0 }

/-- C3, witness: the sample burst particle satisfies the hypotheses and
is released exactly at the 50th update. -/
theorem explosion_decay_witness :
    (sampleBurstParticle.isExplosion = true ∧
      sampleBurstParticle.explosionLife ≤ sampleBurstParticle.opacity ∧
      0 ≤ sampleBurstParticle.opacity ∧ sampleBurstParticle.explosionLife = 1) ∧
    iterateField mathZero sampleFieldConfig sampleFieldEnv [] 50
      sampleBurstParticle = none := by
  have h1 : sampleBurstParticle.isExplosion = true := rfl
  have h2 : sampleBurstParticle.explosionLife ≤ sampleBurstParticle.opacity := by
    show (1 : ℚ) ≤ 1
    norm_num
  have h3 : (0 : ℚ) ≤ sampleBurstParticle.opacity := by
    show (0 : ℚ) ≤ 1
    norm_num
  have h4 : sampleBurstParticle.explosionLife = 1 := rfl
  exact ⟨⟨h1, h2, h3, h4⟩,
    ((explosion_decay mathZero sampleFieldConfig sampleFieldEnv []
      sampleBurstParticle h1 h2 h3).2 h4).1⟩

theorem wrapCoord_bounds (limit x : ℚ) (h : 0 ≤ limit) :
    0 ≤ wrapCoord limit x ∧ wrapCoord limit x ≤ limit := by
  unfold wrapCoord
  by_cases h1 : x < 0
  · simp only [if_pos h1]
    by_cases h2 : limit < limit
    · simp only [if_pos h2]
      exact ⟨le_refl 0, h⟩
    · simp only [if_neg h2]
      exact ⟨h, le_refl limit⟩
  · simp only [if_neg h1]
    by_cases h2 : limit < x
    · simp only [if_pos h2]
      exact ⟨le_refl 0, h⟩
    · simp only [if_neg h2]
      exact ⟨not_lt.mp h1, not_lt.mp h2⟩

/-- C10: for the base field styles (glitter, pride-confetti, love-bomb),
every particle that remains active after an updateFieldParticles step
— explosion-flagged or not — ends with x in [0, logicalWidth] and y in
[0, logicalHeight], given the claim's provisos (position previously in
range, per-tick displacement below the viewport dimensions); the edge
wrapping in fact forces the bounds for every incoming position and
velocity. -/
theorem field_wrap_bounds (m : MathPrims) (cfg : FieldConfig) (env : FieldEnv)
    (others : List Particle) (p q : Particle)
    (hstyle : cfg.fieldParticleStyle = "glitter" ∨
      cfg.fieldParticleStyle = "pride-confetti" ∨
      cfg.fieldParticleStyle = "love-bomb")
    (hW : 0 ≤ env.logicalWidth) (hH : 0 ≤ env.logicalHeight)
    (hx0 : 0 ≤ p.x) (hx1 : p.x ≤ env.logicalWidth)
    (hy0 : 0 ≤ p.y) (hy1 : p.y ≤ env.logicalHeight)
    (hdx : |p.vx| < env.logicalWidth) (hdy : |p.vy| < env.logicalHeight)
    (hq : updateFieldOne m cfg env others p = some q) :
    (0 ≤ q.x ∧ q.x ≤ env.logicalWidth) ∧
      (0 ≤ q.y ∧ q.y ≤ env.logicalHeight) := by
  unfold updateFieldOne at hq
  by_cases hb : (colorPhase cfg p).isExplosion = true
  · simp only [hb, if_pos] at hq
    by_cases hlife : (explosionPhase (colorPhase cfg p)).explosionLife ≤ 0
    · rw [if_pos hlife] at hq
      cases hq
    · rw [if_neg hlife] at hq
      injection hq with hq
      subst hq
      obtain ⟨_, _, _, hkx, hky⟩ := fieldKinematics_fields m env.logicalWidth
        env.logicalHeight (explosionPhase (colorPhase cfg p))
      rw [hkx, hky]
      exact ⟨wrapCoord_bounds _ _ hW, wrapCoord_bounds _ _ hH⟩
  · simp only [hb, if_neg, Bool.not_eq_true] at hq
    injection hq with hq
    subst hq
    obtain ⟨_, _, _, hkx, hky⟩ := fieldKinematics_fields m env.logicalWidth
      env.logicalHeight (separationForce m cfg others
        (mouseForce m cfg env (driftForce m (colorPhase cfg p))))
    rw [hkx, hky]
    exact ⟨wrapCoord_bounds _ _ hW, wrapCoord_bounds _ _ hH⟩

/-- C10, witness: a concrete glitter particle at (10, 20) with a small
velocity stays inside the 1000 by 800 viewport after the update. -/
theorem field_wrap_witness :
    (sampleFieldConfig.fieldParticleStyle = "glitter" ∧
      (0 : ℚ) ≤ sampleFieldEnv.logicalWidth ∧
      (0 : ℚ) ≤ sampleFieldEnv.logicalHeight) ∧
    ∀ q : Particle,
      updateFieldOne mathZero sampleFieldConfig sampleFieldEnv []
        { sampleBurstParticle with isExplosion := false, x := 10, y := 20 } = some q →
      (0 ≤ q.x ∧ q.x ≤ sampleFieldEnv.logicalWidth) ∧
        (0 ≤ q.y ∧ q.y ≤ sampleFieldEnv.logicalHeight) := by
  refine ⟨⟨rfl, by norm_num [sampleFieldEnv], by norm_num [sampleFieldEnv]⟩, ?_⟩
  intro q hq
  exact field_wrap_bounds mathZero sampleFieldConfig sampleFieldEnv []
    { sampleBurstParticle with isExplosion := false, x := 10, y := 20 } q
    (Or.inl rfl)
    (by norm_num [sampleFieldEnv]) (by norm_num [sampleFieldEnv])
    (by norm_num [sampleBurstParticle]) (by norm_num [sampleFieldEnv, sampleBurstParticle])
    (by norm_num [sampleBurstParticle]) (by norm_num [sampleFieldEnv, sampleBurstParticle])
    (by norm_num [sampleFieldEnv, sampleBurstParticle])
    (by norm_num [sampleFieldEnv, sampleBurstParticle])
    hq

/-! ## Field click explosion (view.js lines 942-1048)

The non-snow branch of createExplosion: the 40-particle radial burst
(lines 1010-1046) and the repulsion impulse applied to the existing
active particles (lines 963-977). -/

/-- Polar data of one burst particle of iteration i (lines 1012-1046).
The source computes `angle = (Math.PI * 2 * i) / sparkleCount`
(line 1013, with no random term) and stores the velocity as
vx = cos(angle)·speed, vy = sin(angle)·speed; the embedding records the
angle as the fraction i/40 of a full turn together with the speed of
line 1014, the polar decomposition the source computes. -/
structure BurstSpawn where
  x : ℚ
  y : ℚ
  angleTurns : ℚ
  speed : ℚ
  baseSize : ℚ
  opacity : ℚ
  isExplosion : Bool
  explosionLife : ℚ
  deriving Repr, DecidableEq, Inhabited

/-- One burst particle; rSpeed and rSize are the two Math.random() draws
of iteration i (lines 1014 and 1022). -/
def mkBurstParticle (cx cy baseSize : ℚ) (count i : ℕ) (rSpeed rSize : ℚ) :
    BurstSpawn :=
  { x := cx
    y := cy
    angleTurns := (i : ℚ) / (count : ℚ)
    speed := 3 + rSpeed * 5
    baseSize := baseSize * (1 + rSize * (8 / 10))
    opacity := 1
    isExplosion := true
    explosionLife := 1 }

/-- The full radial burst: sparkleCount = 40 (line 1011); `rands i` are
the Math.random() draws of iteration i. -/
def createExplosionBurst (cx cy baseSize : ℚ) (rands : ℕ → ℚ × ℚ) :
    List BurstSpawn :=
  (List.range 40).map
    (fun i => mkBurstParticle cx cy baseSize 40 i (rands i).1 (rands i).2)

/-- Magnitude of the repulsion impulse createExplosion adds to the
velocity of an active non-explosion particle at distance d from the
click point (lines 963-977): (1 - d/250)·8 for 0 < d < 250 (scaled by
0.4 in snow style), and no impulse otherwise. -/
def explosionImpulse (isSnow : Bool) (d : ℚ) : ℚ :=
  if d < 250 ∧ 0 < d then
    (1 - d / 250) * 8 * (if isSnow then 4 / 10 else 1)
  else 0

theorem explosionImpulse_in_range (d : ℚ) (h1 : 0 < d) (h2 : d < 250) :
    explosionImpulse false d = (1 - d / 250) * 8 := by
  unfold explosionImpulse
  rw [if_pos (show d < 250 ∧ 0 < d from ⟨h2, h1⟩)]
  norm_num

theorem burst_getD (cx cy b : ℚ) (r : ℕ → ℚ × ℚ) (i : ℕ) (h : i < 40) :
    (createExplosionBurst cx cy b r).getD i default =
      mkBurstParticle cx cy b 40 i (r i).1 (r i).2 := by
  unfold createExplosionBurst
  rw [List.getD_eq_getElem?_getD, List.getElem?_map, List.getElem?_range h]
  rfl

/-- C8, counterexample.  The claim asserts random jitter on the burst
angles, but the field burst computes `angle = (2π i)/40` with no random
term (the sprinkle burst and the rocket burst have jitter, the field
burst does not): two different random streams give particle 7 the same
angle, exactly 7/40 of a turn. -/
theorem field_explosion_counterexample :
    ((createExplosionBurst 0 0 6 (fun _ => (0, 0))).getD 7 default).angleTurns
        = 7 / 40 ∧
      ((createExplosionBurst 0 0 6
          (fun _ => (37 / 100, 91 / 100))).getD 7 default).angleTurns = 7 / 40 := by
  constructor
  · rw [burst_getD 0 0 6 (fun _ => (0, 0)) 7 (by norm_num)]
    show ((7 : ℕ) : ℚ) / ((40 : ℕ) : ℚ) = 7 / 40
    norm_num
  · rw [burst_getD 0 0 6 (fun _ => (37 / 100, 91 / 100)) 7 (by norm_num)]
    show ((7 : ℕ) : ℚ) / ((40 : ℕ) : ℚ) = 7 / 40
    norm_num

/-- C8, amended.  A click in field mode with explosions enabled
(non-snow, non-fireworks) spawns exactly 40 burst particles whose speeds
lie in [3, 8) and whose launch angles are exactly evenly distributed
around the circle (angle (2π i)/40, with no jitter); and the repulsion
impulse applied to the active non-explosion particles is positive and
strictly increasing as the distance to the click point decreases, for
distances strictly between 0 and the 250 px radius, and vanishes
outside. -/
theorem field_explosion (cx cy bs : ℚ) (rands : ℕ → ℚ × ℚ)
    (hr : ∀ i : ℕ, 0 ≤ (rands i).1 ∧ (rands i).1 < 1) :
    (createExplosionBurst cx cy bs rands).length = 40 ∧
    (∀ i : ℕ, i < 40 →
      3 ≤ ((createExplosionBurst cx cy bs rands).getD i default).speed ∧
      ((createExplosionBurst cx cy bs rands).getD i default).speed < 8 ∧
      ((createExplosionBurst cx cy bs rands).getD i default).angleTurns =
        (i : ℚ) / 40) ∧
    (∀ d1 d2 : ℚ, 0 < d2 → d2 < d1 → d1 < 250 →
      explosionImpulse false d1 < explosionImpulse false d2 ∧
      0 < explosionImpulse false d2) ∧
    (∀ d : ℚ, d ≤ 0 ∨ 250 ≤ d → explosionImpulse false d = 0) := by
  refine ⟨?_, ?_, ?_, ?_⟩
  · unfold createExplosionBurst
    rw [List.length_map, List.length_range]
  · intro i hi
    rw [burst_getD cx cy bs rands i hi]
    obtain ⟨h0, h1⟩ := hr i
    refine ⟨?_, ?_, ?_⟩
    · show (3 : ℚ) ≤ 3 + (rands i).1 * 5
      nlinarith
    · show (3 : ℚ) + (rands i).1 * 5 < 8
      nlinarith
    · show ((i : ℕ) : ℚ) / ((40 : ℕ) : ℚ) = (i : ℚ) / 40
      norm_num
  · intro d1 d2 h2 h21 h1250
    have hd2250 : d2 < 250 := lt_trans h21 h1250
    have hd10 : 0 < d1 := lt_trans h2 h21
    rw [explosionImpulse_in_range d1 hd10 h1250,
      explosionImpulse_in_range d2 h2 hd2250]
    constructor
    · nlinarith
    · nlinarith
  · intro d hd
    unfold explosionImpulse
    rcases hd with hd | hd
    · rw [if_neg]
      intro hcon
      exact absurd hcon.2 (not_lt.mpr hd)
    · rw [if_neg]
      intro hcon
      exact absurd hcon.1 (not_lt.mpr hd)

/-- C8, witness for the amended theorem: the zero random stream is valid
and yields the 40-particle burst with the stated speeds and angles. -/
theorem field_explosion_witness :
    (∀ i : ℕ, 0 ≤ ((fun _ : ℕ => ((0 : ℚ), (0 : ℚ))) i).1 ∧
        ((fun _ : ℕ => ((0 : ℚ), (0 : ℚ))) i).1 < 1) ∧
      (createExplosionBurst 500 400 6 (fun _ => (0, 0))).length = 40 := by
  have hr : ∀ i : ℕ, 0 ≤ ((fun _ : ℕ => ((0 : ℚ), (0 : ℚ))) i).1 ∧
      ((fun _ : ℕ => ((0 : ℚ), (0 : ℚ))) i).1 < 1 := by
    intro i
    exact ⟨le_refl 0, by norm_num⟩
  exact ⟨hr, (field_explosion 500 400 6 (fun _ => (0, 0)) hr).1⟩

end GlitterBomb
